import Mathlib

/-!
Shallow embedding of the B+Tree in `src/include/index/btree.h` (namespace
`buzzdb`, template `BTree<KeyT, ValueT, ComparatorT, PageSize>`).

Modelling choices, each traceable to the source:

* Keys and values are `Int` (the deployed instantiations use fixed-size
  integer keys and values of pointer width, so `sizeof(ValueT)` equals
  `sizeof(uint64_t)`; the `memmove` in `remove_from_parent` that is sized by
  `sizeof(ValueT)` therefore moves whole child entries).
* A page is a record holding the `Node` header (`level`, `count`) together
  with total-function views of the in-page arrays (`keys`, `values`,
  `children`).  A `LeafNode` uses `keys`/`values`, an `InnerNode` uses
  `keys`/`children`; no page is ever reinterpreted from one kind to the
  other after creation (the level field of a page is fixed at creation).
  Array cells beyond the logical region are modelled as whatever the
  function holds there, mirroring the stale bytes the C++ code leaves
  behind.
* The buffer manager is modelled as a total map `pages : Nat → Page`.
  A page that has never been written is zero-filled (`zeroPage`), which is
  the assumption the code itself relies on for `root = 0` on first insert
  and for pages freshly minted from `next_page_id`.
* The `while` loops of `lookup`, `insert` and `erase` are modelled with a
  fuel parameter large enough for every execution the theorems touch; the
  binary-search loop of `lower_bound` is likewise fuel-driven, and its fuel
  `count + 1` exceeds the size of the interval `stop + 1 - start` that the
  C++ loop shrinks on every iteration, so the fuel bound is unreachable.
* `erase` additionally records the pin/unpin/write events it performs, in
  program order, so that the latch discipline can be inspected.
-/

/-- Insert an element at position `i` of a list, mirroring
`std::vector::insert(begin() + i, a)`. -/
def insertAt : List α → Nat → α → List α
  | l, 0, a => a :: l
  | [], _ + 1, a => [a]
  | x :: l, i + 1, a => x :: insertAt l i a

/-- Overwrite position `i` of a list, mirroring `vec[i] = a`. -/
def setAt : List α → Nat → α → List α
  | [], _, _ => []
  | _ :: l, 0, a => a :: l
  | x :: l, i + 1, a => x :: setAt l i a

/-- One fixed-size page holding a node.  The first two fields are the
`Node` header; `keys`/`values` are the `LeafNode` payload arrays and
`keys`/`children` the `InnerNode` payload arrays. -/
structure Page where
  level : Nat
  count : Nat
  keys : Nat → Int
  values : Nat → Int
  children : Nat → Nat

/-- A never-written page, as the buffer pool zero-fills it. -/
def zeroPage : Page :=
  { level := 0, count := 0, keys := fun _ => 0, values := fun _ => 0,
    children := fun _ => 0 }

/-- Node capacity, `kCapacity = 42` for both node kinds. -/
def kCapacity : Nat := 42

/-- Is the node a leaf node?  (`level == 0`.) -/
def Page.is_leaf (n : Page) : Bool := n.level = 0

/-- The binary-search loop shared by `LeafNode::lower_bound` and
`InnerNode::lower_bound`: searches `keys[start..stop]` and returns the
found position with `true`, or `(cnt, false)` when the loop exits.  The
loop is driven by a fuel argument so that it evaluates by structural
recursion; the interval `stop + 1 - start` shrinks on every iteration,
so any fuel of at least that size makes the fuel bound unreachable. -/
def lbAux (keys : Nat → Int) (key : Int) (cnt : Nat) :
    Nat → Nat → Nat → Nat × Bool
  | 0, _, _ => (cnt, false)
  | fuel + 1, start, stop =>
    if start ≤ stop then
      if keys (start + (stop - start) / 2) = key then
        (start + (stop - start) / 2, true)
      else if keys (start + (stop - start) / 2) < key then
        lbAux keys key cnt fuel (start + (stop - start) / 2 + 1) stop
      else if start + (stop - start) / 2 = 0 ∨
          keys (start + (stop - start) / 2 - 1) < key then
        (start + (stop - start) / 2, true)
      else
        lbAux keys key cnt fuel start (start + (stop - start) / 2 - 1)
    else (cnt, false)

/-- The full `lower_bound` routine over `keys[0..count)`: the empty node
short-circuits to `(0, false)`, otherwise the loop runs with
`start = 0`, `end = count - 1` (and fuel `count + 1`, which the loop can
never exhaust). -/
def lowerBoundFn (count : Nat) (keys : Nat → Int) (key : Int) :
    Nat × Bool :=
  if count = 0 then (0, false)
  else lbAux keys key count (count + 1) 0 (count - 1)

namespace LeafNode

/-- Model of `LeafNode::lower_bound`. -/
def lower_bound (n : Page) (key : Int) : Nat × Bool :=
  lowerBoundFn n.count n.keys key

/-- Model of `LeafNode::get_key_vector`: the first `count` keys. -/
def get_key_vector (n : Page) : List Int :=
  (List.range n.count).map n.keys

/-- Model of `LeafNode::get_value_vector`: the first `count` values. -/
def get_value_vector (n : Page) : List Int :=
  (List.range n.count).map n.values

/-- Model of `LeafNode::syncArrays`: write the first `count` entries of both
vectors back into the in-page arrays, leaving later cells untouched. -/
def syncArrays (n : Page) (keyVec valueVec : List Int) : Page :=
  { n with
    keys := fun i => if i < n.count then keyVec.getD i 0 else n.keys i,
    values := fun i => if i < n.count then valueVec.getD i 0 else n.values i }

/-- Model of `LeafNode::insert`: upsert on exact match, otherwise insert the pair
at the `lower_bound` position (or append) and bump `count`. -/
def insert (n : Page) (key value : Int) : Page :=
  let res := lower_bound n key
  let insertPos := res.1
  let keyExists := res.2
  let valueVec := get_value_vector n
  let keyVec := get_key_vector n
  if keyExists ∧ n.keys insertPos ≤ key then
    syncArrays n keyVec (setAt valueVec insertPos value)
  else
    let pair :=
      if keyExists then
        (insertAt keyVec insertPos key, insertAt valueVec insertPos value)
      else
        (keyVec ++ [key], valueVec ++ [value])
    syncArrays { n with count := n.count + 1 } pair.1 pair.2

/-- Model of `LeafNode::locateKeyPosition`: position of the key and whether it is
present (the `keys[position]` re-check only runs when the search said
found, mirroring the short-circuit `&&`). -/
def locateKeyPosition (n : Page) (keyToLocate : Int) : Nat × Bool :=
  let searchResult := lower_bound n keyToLocate
  let position := if searchResult.2 then searchResult.1 else n.count - 1
  (position, searchResult.2 ∧ n.keys position = keyToLocate)

/-- Model of `LeafNode::moveDataToLeftFrom`: shift keys and values left by one
from `startIndex`, moving `count - startIndex` entries (so the last
source index is `count`), then decrement `count`. -/
def moveDataToLeftFrom (n : Page) (startIndex : Nat) : Page :=
  { n with
    keys := fun i =>
      if startIndex ≤ i ∧ i < startIndex + (n.count - startIndex) then
        n.keys (i + 1)
      else n.keys i,
    values := fun i =>
      if startIndex ≤ i ∧ i < startIndex + (n.count - startIndex) then
        n.values (i + 1)
      else n.values i,
    count := n.count - 1 }

/-- Model of `LeafNode::erase`: remove the key if present, no-op otherwise.  The
boolean reports whether the page was mutated. -/
def erase (n : Page) (key : Int) : Bool × Page :=
  let res := locateKeyPosition n key
  if res.2 then (true, moveDataToLeftFrom n res.1) else (false, n)

/-- Model of `LeafNode::createAndInitializeLeaf` followed by
`LeafNode::transferDataToNewLeaf`, as performed by `LeafNode::split` on
the caller-supplied buffer `buf`: the new leaf gets `count = half`, the
split leaf keeps `count - half` entries, and the data is copied with the
source ranges starting at the decremented `count` (`values` copies
`half + 1` cells, `keys` copies `half` cells). -/
def split (n : Page) (buf : Page) : Page × Page × Int :=
  let halfPoint := (n.count - 1) / 2
  let newCount := n.count - halfPoint
  let left : Page := { n with count := newCount }
  let separatorKey := n.keys (halfPoint + 1)
  let right : Page :=
    { buf with
      count := halfPoint,
      values := fun i =>
        if i < halfPoint + 1 then n.values (newCount + i) else buf.values i,
      keys := fun i =>
        if i < halfPoint then n.keys (newCount + i) else buf.keys i }
  (left, right, separatorKey)

end LeafNode

namespace InnerNode

/-- Model of `InnerNode::lower_bound`: same loop as the leaf, over
`keys[0..count)`. -/
def lower_bound (n : Page) (key : Int) : Nat × Bool :=
  lowerBoundFn n.count n.keys key

/-- Model of `InnerNode::get_key_vector`: the first `count - 1` keys (the node
stores one separator fewer than children). -/
def get_key_vector (n : Page) : List Int :=
  (List.range (n.count - 1)).map n.keys

/-- Model of `InnerNode::get_child_vector`: the first `count` children. -/
def get_child_vector (n : Page) : List Nat :=
  (List.range n.count).map n.children

/-- Write the key and child vectors back into the arrays
(`std::copy` onto the array heads), leaving later cells untouched. -/
def writeBack (n : Page) (keyVec : List Int) (childVec : List Nat) :
    Page :=
  { n with
    keys := fun i => if i < keyVec.length then keyVec.getD i 0 else n.keys i,
    children := fun i =>
      if i < childVec.length then childVec.getD i 0 else n.children i }

/-- Model of `InnerNode::insert`: install a separator/child pair.  A node with
`count == 1` just appends the child; otherwise the pair is inserted at
the `lower_bound` position (the `key > keys[insertPos]` retarget branch
is kept verbatim), or appended when the search found nothing.  `count`
is always incremented. -/
def insert (n : Page) (key : Int) (split_page : Nat) : Page :=
  let res := lower_bound n key
  let insertPos := res.1
  let keyExists := res.2
  let childVec := get_child_vector n
  let keyVec := get_key_vector n
  let pair : List Int × List Nat :=
    if n.count = 1 then
      (keyVec, childVec ++ [split_page])
    else
      if keyExists then
        if key > n.keys insertPos ∧ insertPos < n.count then
          (keyVec, setAt childVec insertPos split_page)
        else
          (insertAt keyVec insertPos key,
            insertAt childVec (insertPos + 1) split_page)
      else
        (keyVec ++ [key], childVec ++ [split_page])
  writeBack { n with count := n.count + 1 } pair.1 pair.2

/-- Model of `InnerNode::split`: the right node receives
`count - split_point` keys and children starting at
`split_point = count / 2`, keeps the split node's level, and gets
`count = split_point`; the separator `keys[split_point - 1]` is
returned. -/
def split (n : Page) (buf : Page) : Page × Page × Int :=
  let split_point := n.count / 2
  let split_key := n.keys (split_point - 1)
  let tempNum := n.count - split_point
  let right : Page :=
    { buf with
      level := n.level,
      count := split_point,
      children := fun i =>
        if i < tempNum then n.children (split_point + i) else buf.children i,
      keys := fun i =>
        if i < tempNum then n.keys (split_point + i) else buf.keys i }
  let left : Page := { n with count := split_point }
  (left, right, split_key)

end InnerNode

/-- The tree controller state: the page pool contents, the optional root
page id and the next free page id. -/
structure Store where
  pages : Nat → Page
  root : Option Nat
  next : Nat

/-- Write one page of the pool. -/
def updPages (pages : Nat → Page) (pid : Nat) (p : Page) : Nat → Page :=
  fun q => if q = pid then p else pages q

/-- The state of a `BTree` right after construction: `next_page_id = 1`,
no root, and a zero-filled backing store. -/
def initialStore : Store :=
  { pages := fun _ => zeroPage, root := none, next := 1 }

namespace BTree

/-- The descent loop of `BTree::lookup`: follow `lower_bound` matches
(or the last child) down to a leaf, then report the exact match. -/
def lookupLoop (key : Int) : Nat → Store → Nat → Option Int
  | 0, _, _ => none
  | fuel + 1, s, cur =>
    let node := s.pages cur
    if node.level = 0 then
      let res := LeafNode.lower_bound node key
      if res.2 ∧ node.keys res.1 = key then some (node.values res.1)
      else none
    else
      let res := InnerNode.lower_bound node key
      let idx := if res.2 then res.1 else node.count - 1
      lookupLoop key fuel s (node.children idx)

/-- Model of `BTree::lookup`. -/
def lookup (s : Store) (key : Int) : Option Int :=
  match s.root with
  | none => none
  | some r => lookupLoop key ((s.pages r).level + 1) s r

/-- Events recorded against the buffer manager: pinning a page,
unpinning it with the dirty flag passed, and writing its bytes. -/
inductive Event where
  | fixPage : Nat → Event
  | unfixPage : Nat → Bool → Event
  | writePage : Nat → Event
deriving DecidableEq, Repr

/-- Model of `BTree::remove_from_parent`: if `lower_bound` found the erased key
exactly, shift `count - parentIdx` separator keys and children left by
one (so the last source index is `count`) and decrement `count`.  The
boolean reports whether the page was mutated. -/
def remove_from_parent (n : Page) (key : Int) : Bool × Page :=
  let res := InnerNode.lower_bound n key
  let parentIdx := res.1
  if res.2 ∧ n.keys parentIdx = key then
    (true,
      { n with
        keys := fun i =>
          if parentIdx ≤ i ∧ i < parentIdx + (n.count - parentIdx) then
            n.keys (i + 1)
          else n.keys i,
        children := fun i =>
          if parentIdx ≤ i ∧ i < parentIdx + (n.count - parentIdx) then
            n.children (i + 1)
          else n.children i,
        count := n.count - 1 })
  else (false, n)

/-- The loop of `BTree::erase` below the initial root pin, recording
buffer-manager events: `navigate_to_child` pins the child and releases
the current page clean; at the leaf the key is erased, the parent is
stripped when the leaf emptied, and the leaf is released dirty. -/
def eraseLoop (key : Int) :
    Nat → Store → Nat → Option Nat → List Event → Store × List Event
  | 0, s, _, _, tr => (s, tr)
  | fuel + 1, s, cur, parent, tr =>
    let node := s.pages cur
    if node.level = 0 then
      let res := LeafNode.erase node key
      let s1 : Store :=
        if res.1 then { s with pages := updPages s.pages cur res.2 } else s
      let tr1 := tr ++ (if res.1 then [Event.writePage cur] else [])
      match parent with
      | some p =>
        if (s1.pages cur).count = 0 then
          let pr := remove_from_parent (s1.pages p) key
          let s2 : Store :=
            if pr.1 then { s1 with pages := updPages s1.pages p pr.2 }
            else s1
          (s2, tr1 ++ (if pr.1 then [Event.writePage p] else [])
            ++ [Event.unfixPage cur true])
        else (s1, tr1 ++ [Event.unfixPage cur true])
      | none => (s1, tr1 ++ [Event.unfixPage cur true])
    else
      let res := InnerNode.lower_bound node key
      let childIdx := if res.2 then res.1 else node.count - 1
      let nextPage := node.children childIdx
      eraseLoop key fuel s nextPage (some cur)
        (tr ++ [Event.fixPage nextPage, Event.unfixPage cur false])

/-- Model of `BTree::erase`, also returning the buffer-manager event trace. -/
def eraseWithTrace (s : Store) (key : Int) : Store × List Event :=
  match s.root with
  | none => (s, [])
  | some r =>
    eraseLoop key ((s.pages r).level + 1) s r none [Event.fixPage r]

/-- The state transformer of `BTree::erase`. -/
def erase (s : Store) (key : Int) : Store :=
  (eraseWithTrace s key).1

/-- The brand-new root built after a split of a node with no parent:
the freshly fetched page gets its level set and then receives the two
`InnerNode::insert` calls for the old node and the new sibling. -/
def makeNewRoot (prior : Page) (newLevel : Nat) (splitKey : Int)
    (oldID newID : Nat) : Page :=
  InnerNode.insert
    (InnerNode.insert { prior with level := newLevel } splitKey oldID)
    splitKey newID

/-- The loop of `BTree::insert`: at a leaf with room insert and stop; at
a full leaf split it, update (or create) the parent and continue into
the covering sibling; at a full inner node likewise; at an inner node
with room descend, retaining the current page as parent. -/
def insertLoop (key value : Int) :
    Nat → Store → Nat → Option Nat → Store
  | 0, s, _, _ => s
  | fuel + 1, s, cur, parent =>
    let node := s.pages cur
    if node.level = 0 then
      if node.count < kCapacity then
        { s with pages := updPages s.pages cur (LeafNode.insert node key value) }
      else
        let newLeafID := s.next
        let res := LeafNode.split node (s.pages newLeafID)
        let splitKey := res.2.2
        let pages1 := updPages (updPages s.pages cur res.1) newLeafID res.2.1
        match parent with
        | none =>
          let oldLeafID := s.root.getD 0
          let newRootID := s.next + 1
          let rootPage := makeNewRoot (pages1 newRootID) 1 splitKey
            oldLeafID newLeafID
          let s2 : Store :=
            { pages := updPages pages1 newRootID rootPage,
              root := some newRootID, next := s.next + 2 }
          insertLoop key value fuel s2
            (if key < splitKey then cur else newLeafID) (some newRootID)
        | some p =>
          let s2 : Store :=
            { s with
              pages := updPages pages1 p
                (InnerNode.insert (pages1 p) splitKey newLeafID),
              next := s.next + 1 }
          insertLoop key value fuel s2
            (if key < splitKey then cur else newLeafID) (some p)
    else
      if node.count = kCapacity then
        let newInnerID := s.next
        let res := InnerNode.split node (s.pages newInnerID)
        let splitKey := res.2.2
        let pages1 := updPages (updPages s.pages cur res.1) newInnerID res.2.1
        match parent with
        | none =>
          let oldInnerID := s.root.getD 0
          let newRootID := s.next + 1
          let rootPage := makeNewRoot (pages1 newRootID)
            ((pages1 cur).level + 1) splitKey oldInnerID newInnerID
          let s2 : Store :=
            { pages := updPages pages1 newRootID rootPage,
              root := some newRootID, next := s.next + 2 }
          insertLoop key value fuel s2
            (if key < splitKey then cur else newInnerID) (some newRootID)
        | some p =>
          let s2 : Store :=
            { s with
              pages := updPages pages1 p
                (InnerNode.insert (pages1 p) splitKey newInnerID),
              next := s.next + 1 }
          insertLoop key value fuel s2
            (if key < splitKey then cur else newInnerID) (some p)
      else
        let res := InnerNode.lower_bound node key
        let childID :=
          if res.2 then node.children res.1
          else node.children (node.count - 1)
        insertLoop key value fuel s childID (some cur)

/-- Model of `BTree::insert`: create the root page id on an empty tree, then run
the descent loop from the root with ample fuel. -/
def insert (s : Store) (key value : Int) : Store :=
  let s0 : Store :=
    match s.root with
    | none => { s with root := some 0, next := 1 }
    | some _ => s
  let r := s0.root.getD 0
  insertLoop key value (2 * (s0.pages r).level + 6) s0 r none

end BTree

/-- All key/value pairs stored in the subtree rooted at a page,
collected leaf-to-right by following the child arrays. -/
def subtreeEntries (s : Store) : Nat → Nat → List (Int × Int)
  | 0, _ => []
  | fuel + 1, pid =>
    let node := s.pages pid
    if node.level = 0 then
      (List.range node.count).map (fun i => (node.keys i, node.values i))
    else
      ((List.range node.count).map
        (fun i => subtreeEntries s fuel (node.children i))).flatten

/-- All key/value pairs reachable from the root. -/
def treeEntries (s : Store) : List (Int × Int) :=
  match s.root with
  | none => []
  | some r => subtreeEntries s ((s.pages r).level + 1) r

/-- The tree's total entry count. -/
def entryCount (s : Store) : Nat := (treeEntries s).length

/-- Number of occurrences of a key in the whole tree. -/
def keyOccurrences (s : Store) (k : Int) : Nat :=
  ((treeEntries s).map Prod.fst).count k

/-- Does the tree's root page exist and hold an inner node? -/
def rootIsInner (s : Store) : Bool :=
  match s.root with
  | none => false
  | some r => 1 ≤ (s.pages r).level

/-- Fold a list of insertions into the tree, starting from a freshly
constructed index. -/
def applyInserts (l : List (Int × Int)) : Store :=
  l.foldl (fun s kv => BTree.insert s kv.1 kv.2) initialStore

/-- Erase each key of a list in turn. -/
def applyErases (s : Store) (l : List Int) : Store :=
  l.foldl BTree.erase s

/-!  Index transcriptions of the raw array accesses.

The following lists record, element by element, the array indices read
by the three bulk-move helpers, exactly as their pointer arithmetic
produces them. -/

/-- Value-array indices read by `LeafNode::transferDataToNewLeaf`
(`std::copy(values + count, values + count + startPoint + 1, ...)`),
where `count` is the already-decremented count of the split leaf. -/
def transferValueReadIdxs (count startPoint : Nat) : List Nat :=
  (List.range (startPoint + 1)).map (count + ·)

/-- Key-array indices read by `LeafNode::transferDataToNewLeaf`
(`std::copy(keys + count, keys + count + startPoint, ...)`). -/
def transferKeyReadIdxs (count startPoint : Nat) : List Nat :=
  (List.range startPoint).map (count + ·)

/-- Indices read by the two `memmove`s of `LeafNode::moveDataToLeftFrom`
(`count - startIndex` elements starting at `startIndex + 1`). -/
def moveLeftReadIdxs (count startIndex : Nat) : List Nat :=
  (List.range (count - startIndex)).map (startIndex + 1 + ·)

/-- Indices read by the two `memmove`s of `BTree::remove_from_parent`
(`count - parentIdx` elements starting at `parentIdx + 1`). -/
def removeParentReadIdxs (count parentIdx : Nat) : List Nat :=
  (List.range (count - parentIdx)).map (parentIdx + 1 + ·)

/-!  Invariants used by the growth proof. -/

/-- The tree is still in its initial single-leaf phase: the root is leaf
page `0`, it holds exactly the keys `seen` (strictly sorted), and every
other page of the pool is still untouched. -/
def LeafPhase (s : Store) (seen : List Int) : Prop :=
  s.root = some 0 ∧ s.next = 1 ∧ (s.pages 0).level = 0 ∧
    (s.pages 0).count = seen.length ∧
    (∀ j, j < (s.pages 0).count → ∀ i, i < j →
      (s.pages 0).keys i < (s.pages 0).keys j) ∧
    (∀ x, (∃ i, i < (s.pages 0).count ∧ (s.pages 0).keys i = x) ↔
      x ∈ seen) ∧
    (∀ p, p ≠ 0 → s.pages p = zeroPage)

/-- The root page id exists, is already allocated (below `next_page_id`)
and holds an inner node. -/
def rootGoodInv (s : Store) : Prop :=
  ∃ r, s.root = some r ∧ r < s.next ∧ 1 ≤ (s.pages r).level

/-- Disjunctive invariant for the growth argument: the tree is either
still unborn, in its single-leaf phase holding the keys inserted so far,
or already re-rooted at an inner node. -/
def GrowInv (s : Store) (seen : List Int) : Prop :=
  (seen = [] ∧ s = initialStore) ∨
    (LeafPhase s seen ∧ seen.length ≤ 42) ∨ rootGoodInv s

/-!  Concrete scenario states used as failing inputs. -/

/-- The 42 insertions `(0,0), (1,1), …, (41,41)`. -/
def fill42 : List (Int × Int) :=
  (List.range 42).map (fun i => ((i : Int), (i : Int)))

/-- The state after those 42 insertions: a single full root leaf. -/
def sFull42 : Store := applyInserts fill42

/-- Re-inserting the existing key `21` with a new value on the full
leaf: the leaf is split first, and the new pair is routed to the right
sibling while the old pair stays in the left one. -/
def sDup : Store := BTree.insert sFull42 21 100

/-- State `sDup` after erasing keys `0..20`, leaving the left leaf holding
only the stale copy of key `21`. -/
def sDrained : Store :=
  applyErases sDup ((List.range 21).map (fun i => (i : Int)))

/-- State `sDrained` after `erase(21)`: the left leaf empties, its separator
is stripped from the root, and the duplicate in the right leaf becomes
reachable. -/
def sDupErased : Store := BTree.erase sDrained 21

/-- The 43 insertions `(0,0), …, (42,42)` (all keys distinct). -/
def fill43 : List (Int × Int) :=
  (List.range 43).map (fun i => ((i : Int), (i : Int)))

/-- The two-level tree obtained from `fill43`, drained of keys `0..20`
so that its left leaf holds only key `21`. -/
def s43drained : Store :=
  applyErases (applyInserts fill43) ((List.range 21).map (fun i => (i : Int)))

/-- A one-key leaf used to exhibit the `lower_bound` boolean contract. -/
def oneKeyLeaf : Page :=
  { zeroPage with count := 1, keys := fun i => if i = 0 then 5 else 0 }

/-- A full, sorted leaf with `keys[i] = values[i] = i`. -/
def fullLeaf42 : Page :=
  { zeroPage with
    count := 42,
    keys := fun i => (i : Int),
    values := fun i => (i : Int) }

/-- A full, sorted inner node with `keys[i] = i` and
`children[i] = 100 + i`. -/
def fullInner42 : Page :=
  { zeroPage with
    level := 1,
    count := 42,
    keys := fun i => (i : Int),
    children := fun i => 100 + i }

/-- A full leaf whose cells beyond the 42-element arrays hold sentinel
values (`777` for keys, `888` for values): any sentinel surfacing in a
result witnesses a read past the end of an array. -/
def leafOOB : Page :=
  { zeroPage with
    count := 42,
    keys := fun i => if i < 42 then (i : Int) else 777,
    values := fun i => if i < 42 then (i : Int) else 888 }

/-- A full inner node with sentinels beyond its 42-element arrays
(`777` for keys, `999` for children). -/
def innerOOB : Page :=
  { zeroPage with
    level := 1,
    count := 42,
    keys := fun i => if i < 42 then (i : Int) else 777,
    children := fun i => if i < 42 then 100 + i else 999 }

/-!  Specification of the binary search. -/

/-- Strict sortedness of the first `cnt` cells of a key array. -/
def sortedTo (keys : Nat → Int) (cnt : Nat) : Prop :=
  ∀ j, j < cnt → ∀ i, i < j → keys i < keys j

instance (keys : Nat → Int) (cnt : Nat) : Decidable (sortedTo keys cnt) :=
  Nat.decidableBallLT _ _

/-- The first index below `cnt` whose key is `≥ key`, or `cnt` when every
key is smaller. -/
def firstGeq (keys : Nat → Int) (key : Int) : Nat → Nat
  | 0 => 0
  | n + 1 =>
    let r := firstGeq keys key n
    if r < n then r else if key ≤ keys n then n else n + 1

theorem firstGeq_le (keys : Nat → Int) (key : Int) :
    ∀ cnt, firstGeq keys key cnt ≤ cnt := by
  intro cnt
  induction cnt with
  | zero => simp [firstGeq]
  | succ n ih =>
    simp only [firstGeq]
    split
    · omega
    · split <;> omega

theorem firstGeq_below (keys : Nat → Int) (key : Int) :
    ∀ cnt i, i < firstGeq keys key cnt → keys i < key := by
  intro cnt
  induction cnt with
  | zero => simp [firstGeq]
  | succ n ih =>
    intro i hi
    simp only [firstGeq] at hi
    by_cases hr : firstGeq keys key n < n
    · exact ih i (by simpa [hr] using hi)
    · rw [if_neg hr] at hi
      have hn : firstGeq keys key n = n := by
        have := firstGeq_le keys key n; omega
      by_cases hk : key ≤ keys n
      · rw [if_pos hk] at hi
        exact ih i (by omega)
      · rw [if_neg hk] at hi
        rcases Nat.lt_succ_iff_lt_or_eq.mp hi with h | h
        · exact ih i (by omega)
        · subst h; omega

theorem firstGeq_at (keys : Nat → Int) (key : Int) :
    ∀ cnt, firstGeq keys key cnt < cnt → key ≤ keys (firstGeq keys key cnt) := by
  intro cnt
  induction cnt with
  | zero => simp [firstGeq]
  | succ n ih =>
    intro h
    simp only [firstGeq] at h ⊢
    by_cases hr : firstGeq keys key n < n
    · simp only [if_pos hr]; exact ih hr
    · rw [if_neg hr] at h ⊢
      by_cases hk : key ≤ keys n
      · simp only [if_pos hk]; exact hk
      · rw [if_neg hk] at h; omega

theorem firstGeq_min (keys : Nat → Int) (key : Int) :
    ∀ cnt i, i < cnt → key ≤ keys i → firstGeq keys key cnt ≤ i := by
  intro cnt
  induction cnt with
  | zero => omega
  | succ n ih =>
    intro i hi hk
    simp only [firstGeq]
    by_cases hr : firstGeq keys key n < n
    · rw [if_pos hr]
      rcases Nat.lt_succ_iff_lt_or_eq.mp hi with h | h
      · exact ih i h hk
      · have := firstGeq_le keys key n; omega
    · rw [if_neg hr]
      rcases Nat.lt_succ_iff_lt_or_eq.mp hi with h | h
      · have := ih i h hk; omega
      · subst h; rw [if_pos hk]

theorem firstGeq_eq_of_all_below (keys : Nat → Int) (key : Int) (cnt : Nat)
    (h : ∀ i, i < cnt → keys i < key) : firstGeq keys key cnt = cnt := by
  by_contra hne
  have hlt : firstGeq keys key cnt < cnt :=
    lt_of_le_of_ne (firstGeq_le keys key cnt) hne
  have := firstGeq_at keys key cnt hlt
  have := h _ hlt
  omega

/-- The `(count, false)` loop exit is reached exactly when every key of
the sorted range is below the probe. -/
theorem lbAux_exit (keys : Nat → Int) (key : Int) (cnt start stop : Nat)
    (hpos : 0 < cnt)
    (h1 : ∀ i, i < start → keys i < key)
    (h2 : stop = cnt - 1 ∨ key ≤ keys stop)
    (hgt : stop < start) (hstart : start ≤ stop + 1) :
    (cnt, false) =
      (firstGeq keys key cnt, decide (firstGeq keys key cnt < cnt)) := by
  rcases h2 with heq | hge
  · have hstart' : cnt ≤ start := by omega
    have hfg : firstGeq keys key cnt = cnt :=
      firstGeq_eq_of_all_below keys key cnt fun i hi => h1 i (by omega)
    simp [hfg]
  · have := h1 stop hgt
    omega

/-- On a sorted range the binary-search loop computes the first
greater-or-equal position, with the boolean reporting that such a
position exists. -/
theorem lbAux_eq_firstGeq (keys : Nat → Int) (key : Int) (cnt : Nat)
    (hs : sortedTo keys cnt) (hpos : 0 < cnt) :
    ∀ fuel start stop, stop + 1 - start ≤ fuel → stop < cnt →
      start ≤ stop + 1 →
      (∀ i, i < start → keys i < key) →
      (stop = cnt - 1 ∨ key ≤ keys stop) →
      lbAux keys key cnt fuel start stop =
        (firstGeq keys key cnt, decide (firstGeq keys key cnt < cnt)) := by
  intro fuel
  induction fuel with
  | zero =>
    intro start stop hfuel hstop hstart h1 h2
    exact lbAux_exit keys key cnt start stop hpos h1 h2 (by omega) hstart
  | succ fuel ih =>
    intro start stop hfuel hstop hstart h1 h2
    by_cases hss : start ≤ stop
    · have hc1 : start ≤ start + (stop - start) / 2 := by omega
      have hc2 : start + (stop - start) / 2 ≤ stop := by
        have := Nat.div_le_self (stop - start) 2; omega
      have hcc : start + (stop - start) / 2 < cnt := by omega
      rw [show lbAux keys key cnt (fuel + 1) start stop =
        (if start ≤ stop then
          if keys (start + (stop - start) / 2) = key then
            (start + (stop - start) / 2, true)
          else if keys (start + (stop - start) / 2) < key then
            lbAux keys key cnt fuel (start + (stop - start) / 2 + 1) stop
          else if start + (stop - start) / 2 = 0 ∨
              keys (start + (stop - start) / 2 - 1) < key then
            (start + (stop - start) / 2, true)
          else
            lbAux keys key cnt fuel start (start + (stop - start) / 2 - 1)
        else (cnt, false)) from rfl, if_pos hss]
      set c := start + (stop - start) / 2 with hc
      by_cases he : keys c = key
      · rw [if_pos he]
        have hfg : firstGeq keys key cnt = c := by
          have hle : firstGeq keys key cnt ≤ c :=
            firstGeq_min keys key cnt c hcc (le_of_eq he.symm)
          have hbelow : ∀ i, i < c → keys i < key := by
            intro i hi
            by_cases hi2 : i < start
            · exact h1 i hi2
            · have := hs c hcc i hi; omega
          have : ¬ firstGeq keys key cnt < c := by
            intro hlt
            have := firstGeq_at keys key cnt (by omega)
            have := hbelow _ hlt
            omega
          omega
        simp [hfg, hcc]
      · rw [if_neg he]
        by_cases hlt : keys c < key
        · rw [if_pos hlt]
          apply ih
          · omega
          · exact hstop
          · omega
          · intro i hi
            by_cases hi2 : i < start
            · exact h1 i hi2
            · rcases Nat.lt_succ_iff_lt_or_eq.mp hi with h | h
              · have := hs c hcc i h; omega
              · subst h; exact hlt
          · exact h2
        · rw [if_neg hlt]
          have hgec : key ≤ keys c := by omega
          by_cases hor : c = 0 ∨ keys (c - 1) < key
          · rw [if_pos hor]
            have hfg : firstGeq keys key cnt = c := by
              have hle : firstGeq keys key cnt ≤ c :=
                firstGeq_min keys key cnt c hcc hgec
              have hbelow : ∀ i, i < c → keys i < key := by
                intro i hi
                rcases hor with h0 | hprev
                · omega
                · rcases Nat.lt_succ_iff_lt_or_eq.mp
                    (show i < (c - 1) + 1 by omega) with h | h
                  · have := hs (c - 1) (by omega) i h; omega
                  · subst h; exact hprev
              have : ¬ firstGeq keys key cnt < c := by
                intro hlt2
                have := firstGeq_at keys key cnt (by omega)
                have := hbelow _ hlt2
                omega
              omega
            simp [hfg, hcc]
          · rw [if_neg hor]
            push_neg at hor
            apply ih
            · omega
            · omega
            · omega
            · exact h1
            · right
              have := hor.2
              omega
    · rw [show lbAux keys key cnt (fuel + 1) start stop =
        (if start ≤ stop then
          if keys (start + (stop - start) / 2) = key then
            (start + (stop - start) / 2, true)
          else if keys (start + (stop - start) / 2) < key then
            lbAux keys key cnt fuel (start + (stop - start) / 2 + 1) stop
          else if start + (stop - start) / 2 = 0 ∨
              keys (start + (stop - start) / 2 - 1) < key then
            (start + (stop - start) / 2, true)
          else
            lbAux keys key cnt fuel start (start + (stop - start) / 2 - 1)
        else (cnt, false)) from rfl, if_neg hss]
      exact lbAux_exit keys key cnt start stop hpos h1 h2 (by omega) hstart

/-- On a sorted range `lower_bound` returns the first position whose key
is `≥ key` (or `count`), and its boolean is `true` exactly when such a
position exists below `count`. -/
theorem lowerBoundFn_eq_firstGeq (cnt : Nat) (keys : Nat → Int) (key : Int)
    (hs : sortedTo keys cnt) :
    lowerBoundFn cnt keys key =
      (firstGeq keys key cnt, decide (firstGeq keys key cnt < cnt)) := by
  unfold lowerBoundFn
  by_cases h : cnt = 0
  · subst h; simp [firstGeq]
  · rw [if_neg h]
    exact lbAux_eq_firstGeq keys key cnt hs (by omega) (cnt + 1) 0 (cnt - 1)
      (by omega) (by omega) (by omega) (by omega) (Or.inl rfl)

/-- One step of the insert loop at a leaf with room: the pair is
written into the leaf and the loop returns. -/
theorem insertLoop_leaf_room (k v : Int) (fuel : Nat) (s : Store)
    (cur : Nat) (par : Option Nat)
    (hleaf : (s.pages cur).level = 0)
    (hroom : (s.pages cur).count < kCapacity) :
    BTree.insertLoop k v (fuel + 1) s cur par =
      { s with
        pages := updPages s.pages cur (LeafNode.insert (s.pages cur) k v) } := by
  rw [BTree.insertLoop]
  simp only [hleaf, if_pos rfl, if_pos hroom, reduceIte]

/-- Claim C5 (amended): on every node (the leaf and inner routines are
the same function) whose searched range `keys[0..count)` is strictly
increasing, `lower_bound` returns as index the first position whose key
is `≥ k` — `count` when `k` is larger than all searched keys — and its
boolean result is `true` iff such a position exists below `count`, not
only when an exact match exists there. -/
theorem C5_lower_bound_firstGeq (n : Page) (k : Int)
    (hs : sortedTo n.keys n.count) :
    (LeafNode.lower_bound n k).1 = firstGeq n.keys k n.count ∧
    InnerNode.lower_bound n k = LeafNode.lower_bound n k ∧
    ((LeafNode.lower_bound n k).2 = true ↔
      firstGeq n.keys k n.count < n.count) ∧
    (∀ i, i < firstGeq n.keys k n.count → n.keys i < k) ∧
    (firstGeq n.keys k n.count < n.count →
      k ≤ n.keys (firstGeq n.keys k n.count)) ∧
    firstGeq n.keys k n.count ≤ n.count := by
  have h := lowerBoundFn_eq_firstGeq n.count n.keys k hs
  refine ⟨?_, rfl, ?_, ?_, ?_, ?_⟩
  · unfold LeafNode.lower_bound
    rw [h]
  · unfold LeafNode.lower_bound
    rw [h]
    simp
  · exact fun i hi => firstGeq_below n.keys k n.count i hi
  · exact firstGeq_at n.keys k n.count
  · exact firstGeq_le n.keys k n.count

/-- Witness: the amended C5 statement evaluated on the concrete one-key
leaf `[5]` with probe `7`. -/
theorem C5_lower_bound_firstGeq_witness :
    sortedTo oneKeyLeaf.keys oneKeyLeaf.count ∧
    (LeafNode.lower_bound oneKeyLeaf 7).1 =
      firstGeq oneKeyLeaf.keys 7 oneKeyLeaf.count :=
  ⟨by decide, (C5_lower_bound_firstGeq oneKeyLeaf 7 (by decide)).1⟩

/-- Counterexample to claim C5 as stated: on the one-key leaf `[5]`,
`lower_bound 3` returns `(0, true)` even though `keys[0] = 5 ≠ 3`, so
the boolean is not "an exact match exists at the returned position". -/
theorem C5_boolean_not_exact_match :
    (LeafNode.lower_bound oneKeyLeaf 3).2 = true ∧
    oneKeyLeaf.keys (LeafNode.lower_bound oneKeyLeaf 3).1 ≠ 3 := by
  decide

/-- Claim C3 (amended): splitting a full node (`count = 42`) with sorted
keys partitions its contents exactly, with both halves non-empty.  For a
leaf, the left half retains `count - ⌊(count-1)/2⌋ = 22` entries (the
right half gets `⌊(count-1)/2⌋ = 20`), the separator is the largest key
of the left half, and left keys are `≤` separator `<` right keys.  For
an inner node both halves keep `21` children; the promoted separator
`keys[20]` is retained in neither half's separator array, the remaining
`40` separators are partitioned exactly, left separators `<` promoted
separator `<` right separators, and the children are partitioned
exactly, the right node keeping the split node's level. -/
theorem C3_split_correctness :
    (∀ (n buf l r : Page) (sep : Int), n.count = kCapacity →
      sortedTo n.keys n.count → LeafNode.split n buf = (l, r, sep) →
      l.count = 22 ∧ r.count = 20 ∧ 1 ≤ l.count ∧ 1 ≤ r.count ∧
      sep = n.keys 21 ∧
      (List.range 22).map l.keys ++ (List.range 20).map r.keys =
        (List.range 42).map n.keys ∧
      (∀ i, i < 22 → l.keys i ≤ sep) ∧ l.keys 21 = sep ∧
      (∀ j, j < 20 → sep < r.keys j)) ∧
    (∀ (n buf l r : Page) (sep : Int), n.count = kCapacity →
      sortedTo n.keys (n.count - 1) → InnerNode.split n buf = (l, r, sep) →
      l.count = 21 ∧ r.count = 21 ∧ 1 ≤ l.count ∧ 1 ≤ r.count ∧
      r.level = n.level ∧ sep = n.keys 20 ∧
      (List.range 20).map l.keys ++ sep :: (List.range 20).map r.keys =
        (List.range 41).map n.keys ∧
      (∀ i, i < 20 → l.keys i < sep) ∧
      (∀ j, j < 20 → sep < r.keys j) ∧
      (List.range 21).map l.children ++ (List.range 21).map r.children =
        (List.range 42).map n.children) := by
  constructor
  · intro n buf l r sep h42 hs heq
    rw [show kCapacity = 42 from rfl] at h42
    unfold LeafNode.split at heq
    simp only [h42] at heq
    norm_num at heq
    obtain ⟨hl, hr, hsep⟩ := heq
    subst hl hr hsep
    refine ⟨rfl, rfl, by norm_num, by norm_num, rfl, ?_, ?_, ?_, ?_⟩
    · rfl
    · intro i hi
      rcases Nat.lt_succ_iff_lt_or_eq.mp hi with h | h
      · exact le_of_lt (hs 21 (by omega) i h)
      · subst h; exact le_refl _
    · rfl
    · intro j hj
      show n.keys 21 < (if j < 20 then n.keys (22 + j) else buf.keys j)
      rw [if_pos hj]
      exact hs (22 + j) (by omega) 21 (by omega)
  · intro n buf l r sep h42 hs heq
    rw [show kCapacity = 42 from rfl] at h42
    unfold InnerNode.split at heq
    simp only [h42] at heq
    norm_num at heq
    obtain ⟨hl, hr, hsep⟩ := heq
    subst hl hr hsep
    rw [h42] at hs
    norm_num at hs
    refine ⟨rfl, rfl, by norm_num, by norm_num, rfl, rfl, ?_, ?_, ?_, ?_⟩
    · rfl
    · intro i hi
      exact hs 20 (by omega) i hi
    · intro j hj
      show n.keys 20 < (if j < 21 then n.keys (21 + j) else buf.keys j)
      rw [if_pos (by omega)]
      exact hs (21 + j) (by omega) 20 (by omega)
    · rfl

/-- Counterexample to claim C3 as stated, on the full sorted leaf with
`keys[i] = i` and the full sorted inner node with `keys[i] = i`: the
left half of the leaf split retains `22` entries, not
`⌊(count-1)/2⌋ = 20`; the separator `21` is itself a key of the left
half, so not every left key is `<` the separator; and the inner split's
promoted separator `20`, formerly in the node, is present in neither
resulting node's separator array. -/
theorem C3_split_claim_fails :
    (LeafNode.split fullLeaf42 zeroPage).1.count = 22 ∧
    ¬ (LeafNode.split fullLeaf42 zeroPage).1.count = (42 - 1) / 2 ∧
    ¬ (∀ i, i < (LeafNode.split fullLeaf42 zeroPage).1.count →
      (LeafNode.split fullLeaf42 zeroPage).1.keys i <
        (LeafNode.split fullLeaf42 zeroPage).2.2) ∧
    (InnerNode.split fullInner42 zeroPage).2.2 = 20 ∧
    (20 : Int) ∈ (List.range (fullInner42.count - 1)).map fullInner42.keys ∧
    ¬ (20 : Int) ∈ (List.range ((InnerNode.split fullInner42 zeroPage).1.count - 1)).map
      (InnerNode.split fullInner42 zeroPage).1.keys ∧
    ¬ (20 : Int) ∈ (List.range ((InnerNode.split fullInner42 zeroPage).2.1.count - 1)).map
      (InnerNode.split fullInner42 zeroPage).2.1.keys := by
  refine ⟨rfl, by decide, ?_, rfl, by decide, by decide, by decide⟩
  intro h
  have := h 21 (by decide)
  revert this
  decide

/-- Witness: the amended C3 statement applied to the concrete full leaf
and full inner node with `keys[i] = i`. -/
theorem C3_split_correctness_witness :
    fullLeaf42.count = kCapacity ∧
    sortedTo fullLeaf42.keys fullLeaf42.count ∧
    fullInner42.count = kCapacity ∧
    sortedTo fullInner42.keys (fullInner42.count - 1) ∧
    (LeafNode.split fullLeaf42 zeroPage).1.count = 22 ∧
    (InnerNode.split fullInner42 zeroPage).2.1.count = 21 := by
  refine ⟨rfl, by decide, rfl, by decide, ?_, ?_⟩
  · exact (C3_split_correctness.1 fullLeaf42 zeroPage _ _ _ rfl (by decide)
      rfl).1
  · exact (C3_split_correctness.2 fullInner42 zeroPage _ _ _ rfl (by decide)
      rfl).2.1

/-- Claim C9 is violated by the code: with `count` at the full capacity
`42`, the bulk moves read one cell past the end of the 42-element
arrays.  `transferDataToNewLeaf` always reads `values[42]` (the
sentinel `888` surfaces in the new leaf), `moveDataToLeftFrom` on a
full leaf reads `keys[42]`/`values[42]`, and `remove_from_parent` on a
full parent reads `keys[42]`/`children[42]`; index `42` also appears in
each helper's read-index transcription while `42 < kCapacity` fails. -/
theorem C9_reads_past_array_end :
    (LeafNode.split leafOOB zeroPage).2.1.values 20 = 888 ∧
    (42 : Nat) ∈ transferValueReadIdxs (42 - (42 - 1) / 2) ((42 - 1) / 2) ∧
    (LeafNode.erase leafOOB 0).2.keys 41 = 777 ∧
    (LeafNode.erase leafOOB 0).2.values 41 = 888 ∧
    (42 : Nat) ∈ moveLeftReadIdxs 42 0 ∧
    (BTree.remove_from_parent innerOOB 0).2.keys 41 = 777 ∧
    (BTree.remove_from_parent innerOOB 0).2.children 41 = 999 ∧
    (42 : Nat) ∈ removeParentReadIdxs 42 0 ∧
    ¬ 42 < kCapacity := by
  decide

/-- Claim C10: inserting into a tree with no root sets `root` to page id
`0` and resets `next_page_id` to `1`; given the zero-filled buffer the
page pool supplies for the never-written page `0`, the root page then is
a leaf (`level = 0`) with `count = 1` holding exactly the inserted pair
— no other initialization of the root leaf takes place. -/
theorem C10_first_insert (s : Store) (k v : Int)
    (hroot : s.root = none) (hzero : s.pages 0 = zeroPage) :
    (BTree.insert s k v).root = some 0 ∧
    (BTree.insert s k v).next = 1 ∧
    ((BTree.insert s k v).pages 0).level = 0 ∧
    ((BTree.insert s k v).pages 0).count = 1 ∧
    ((BTree.insert s k v).pages 0).keys 0 = k ∧
    ((BTree.insert s k v).pages 0).values 0 = v := by
  have hins : BTree.insert s k v =
      { pages := updPages s.pages 0 (LeafNode.insert (s.pages 0) k v),
        root := some 0, next := 1 } := by
    simp only [BTree.insert, hroot, Option.getD_some]
    rw [show (s.pages 0).level = 0 from by rw [hzero]; rfl]
    rw [show (2 : Nat) * 0 + 6 = 5 + 1 from rfl]
    rw [insertLoop_leaf_room k v 5 { s with root := some 0, next := 1 } 0 none
      (by show (s.pages 0).level = 0; rw [hzero]; rfl)
      (by show (s.pages 0).count < kCapacity; rw [hzero]; decide)]
  rw [hins]
  refine ⟨rfl, rfl, ?_, ?_, ?_, ?_⟩ <;>
    simp [updPages, hzero, LeafNode.insert, LeafNode.lower_bound, lowerBoundFn,
      zeroPage, LeafNode.get_key_vector, LeafNode.get_value_vector,
      LeafNode.syncArrays, insertAt]

/-- Witness: the C10 statement on the freshly constructed tree with the
pair `(5, 7)`. -/
theorem C10_first_insert_witness :
    initialStore.root = none ∧ initialStore.pages 0 = zeroPage ∧
    ((BTree.insert initialStore 5 7).pages 0).keys 0 = 5 :=
  ⟨rfl, rfl, (C10_first_insert initialStore 5 7 rfl rfl).2.2.2.2.1⟩

set_option maxRecDepth 200000

/-- Claim C1 fails on the code (code bug): after inserting `(i, i)` for
`i = 0..41` and then re-inserting key `21` with value `100`, the full
leaf is split before the upsert check and the new pair is routed to the
right sibling while the old pair stays in the left one; a subsequent
`lookup 21` descends to the left leaf and returns the stale value `21`
instead of the last value written for the key. -/
theorem C1_roundtrip_fails_on_reinsert :
    BTree.lookup sDup 21 = some 21 ∧ BTree.lookup sDup 21 ≠ some 100 := by
  decide

/-- Claim C2 fails on the code (code bug): in the reachable state
`sFull42` the leaf covering key `21` is full; `insert(21, 100)` then
leaves `lookup 21` at the old value and grows the entry count from `42`
to `43` — a duplicate of key `21` now exists instead of an upsert. -/
theorem C2_upsert_fails_on_full_leaf :
    BTree.lookup sFull42 21 = some 21 ∧
    BTree.lookup sDup 21 ≠ some 100 ∧
    entryCount sFull42 = 42 ∧ entryCount sDup = 43 := by
  decide

/-- Claim C4 fails on the code (code bug downstream of the duplicate-key
insert): in `sDrained` both leaves hold key `21`; `erase 21` empties the
left leaf, strips the separator from the root, and the duplicate in the
right leaf becomes reachable, so `lookup 21` returns `some 100` instead
of the empty result. -/
theorem C4_lookup_nonempty_after_erase :
    BTree.lookup sDrained 21 = some 21 ∧
    BTree.lookup sDupErased 21 = some 100 := by
  decide

/-- Claim C7 fails on the code (code bug): after the re-insert of key
`21` on a full leaf, the tree reachable from the root holds key `21`
twice — the "every key appears at most once" invariant is not preserved
by `insert`. -/
theorem C7_duplicate_key_in_tree :
    keyOccurrences sFull42 21 = 1 ∧ keyOccurrences sDup 21 = 2 := by
  decide

/-- Claim C8 fails on the code (code bug): in the two-level tree
`s43drained` whose left leaf holds only key `21`, `erase 21` unpins the
root clean while navigating (`unfixPage 2 false`), then erases the key
from leaf `0` and — because the leaf emptied — writes the separator out
of root page `2` *after* that page's pin was released, and never
releases it dirty. -/
theorem C8_parent_written_after_unpin :
    (BTree.eraseWithTrace s43drained 21).2 =
      [BTree.Event.fixPage 2, BTree.Event.fixPage 0,
       BTree.Event.unfixPage 2 false, BTree.Event.writePage 0,
       BTree.Event.writePage 2, BTree.Event.unfixPage 0 true] ∧
    BTree.Event.unfixPage 2 true ∉ (BTree.eraseWithTrace s43drained 21).2 := by
  decide

/-- The brand-new root built after a root split always has the level it
was given, exactly two children — the old node and the new sibling — and
the separator as its single key, provided the freshly fetched page was
zero-filled (`count = 0`). -/
theorem makeNewRoot_shape (prior : Page) (h : prior.count = 0) (lvl : Nat)
    (sk : Int) (o n' : Nat) :
    (BTree.makeNewRoot prior lvl sk o n').level = lvl ∧
    (BTree.makeNewRoot prior lvl sk o n').count = 2 ∧
    (BTree.makeNewRoot prior lvl sk o n').keys 0 = sk ∧
    (BTree.makeNewRoot prior lvl sk o n').children 0 = o ∧
    (BTree.makeNewRoot prior lvl sk o n').children 1 = n' := by
  unfold BTree.makeNewRoot InnerNode.insert InnerNode.lower_bound
    InnerNode.get_child_vector InnerNode.get_key_vector InnerNode.writeBack
    lowerBoundFn
  simp [h, lbAux, insertAt, show List.range 1 = [0] from rfl]

theorem updPages_at (pages : Nat → Page) (pid : Nat) (p : Page) :
    updPages pages pid p pid = p := by
  simp [updPages]

theorem updPages_ne (pages : Nat → Page) (pid : Nat) (p : Page) (q : Nat)
    (h : q ≠ pid) : updPages pages pid p q = pages q := by
  simp [updPages, h]

/-- One step of the insert loop at a full leaf with no parent pinned:
the leaf is split, a brand-new root is built on the freshly minted page
`next + 1`, and the loop continues into whichever sibling covers the
key. -/
theorem insertLoop_leaf_full_root (k v : Int) (fuel : Nat) (s : Store)
    (cur : Nat)
    (hleaf : (s.pages cur).level = 0)
    (hfull : ¬ (s.pages cur).count < kCapacity) :
    BTree.insertLoop k v (fuel + 1) s cur none =
      BTree.insertLoop k v fuel
        { pages := updPages
            (updPages (updPages s.pages cur
                (LeafNode.split (s.pages cur) (s.pages s.next)).1)
              s.next (LeafNode.split (s.pages cur) (s.pages s.next)).2.1)
            (s.next + 1)
            (BTree.makeNewRoot
              (updPages (updPages s.pages cur
                  (LeafNode.split (s.pages cur) (s.pages s.next)).1)
                s.next (LeafNode.split (s.pages cur) (s.pages s.next)).2.1
                (s.next + 1))
              1 (LeafNode.split (s.pages cur) (s.pages s.next)).2.2
              (s.root.getD 0) s.next),
          root := some (s.next + 1), next := s.next + 2 }
        (if k < (LeafNode.split (s.pages cur) (s.pages s.next)).2.2 then cur
          else s.next)
        (some (s.next + 1)) := by
  rw [BTree.insertLoop]
  simp only [hleaf, if_pos rfl, if_neg hfull, reduceIte]

/-- Inserting into a tree whose root page is a full leaf always splits
that leaf and promotes a brand-new root: the final state's root is the
freshly minted page `next + 1`, an inner node of level `1 = 0 + 1` with
exactly two children — the old root `r` and the new sibling `next` —
and the single separator `keys[21]` of the old root. -/
theorem insert_full_leaf_root (s : Store) (k v : Int) (r : Nat)
    (hr : s.root = some r) (hlev : (s.pages r).level = 0)
    (hcnt : (s.pages r).count = 42) (hrn : r < s.next)
    (hz1 : s.pages s.next = zeroPage)
    (hz2 : s.pages (s.next + 1) = zeroPage) :
    (BTree.insert s k v).root = some (s.next + 1) ∧
    (BTree.insert s k v).next = s.next + 2 ∧
    ((BTree.insert s k v).pages (s.next + 1)).level = 1 ∧
    ((BTree.insert s k v).pages (s.next + 1)).count = 2 ∧
    ((BTree.insert s k v).pages (s.next + 1)).keys 0 = (s.pages r).keys 21 ∧
    ((BTree.insert s k v).pages (s.next + 1)).children 0 = r ∧
    ((BTree.insert s k v).pages (s.next + 1)).children 1 = s.next := by
  have hfull : ¬ (s.pages r).count < kCapacity := by rw [hcnt]; decide
  have hp_r : ∀ (L R RP : Page),
      updPages (updPages (updPages s.pages r L) s.next R) (s.next + 1) RP r
        = L := by
    intro L R RP
    rw [updPages_ne _ _ _ _ (by omega : r ≠ s.next + 1),
      updPages_ne _ _ _ _ (by omega : r ≠ s.next), updPages_at]
  have hp_n : ∀ (L R RP : Page),
      updPages (updPages (updPages s.pages r L) s.next R) (s.next + 1) RP
        s.next = R := by
    intro L R RP
    rw [updPages_ne _ _ _ _ (by omega : s.next ≠ s.next + 1), updPages_at]
  have hp_root : ∀ (L R RP : Page),
      updPages (updPages (updPages s.pages r L) s.next R) (s.next + 1) RP
        (s.next + 1) = RP := by
    intro L R RP
    rw [updPages_at]
  have hp1_root : ∀ (L R : Page),
      updPages (updPages s.pages r L) s.next R (s.next + 1)
        = s.pages (s.next + 1) := by
    intro L R
    rw [updPages_ne _ _ _ _ (by omega : s.next + 1 ≠ s.next),
      updPages_ne _ _ _ _ (by omega : s.next + 1 ≠ r)]
  have hins : BTree.insert s k v =
      BTree.insertLoop k v (2 * (s.pages r).level + 6) s r none := by
    unfold BTree.insert
    simp only [hr, Option.getD_some]
  rw [hins, hlev, show (2 : Nat) * 0 + 6 = 5 + 1 from rfl]
  rw [insertLoop_leaf_full_root k v 5 s r hlev hfull]
  simp only [hr, Option.getD_some, hp1_root, hz2]
  by_cases hk : k < (LeafNode.split (s.pages r) (s.pages s.next)).2.2
  · rw [if_pos hk, show (5 : Nat) = 4 + 1 from rfl]
    rw [insertLoop_leaf_room k v 4 _ r (some (s.next + 1))
      (by show (updPages _ (s.next + 1) _ r).level = 0
          rw [hp_r]
          exact hlev)
      (by show (updPages _ (s.next + 1) _ r).count < kCapacity
          rw [hp_r]
          show (s.pages r).count - ((s.pages r).count - 1) / 2 < kCapacity
          rw [hcnt]
          decide)]
    dsimp only []
    refine ⟨rfl, rfl, ?_, ?_, ?_, ?_, ?_⟩
    · rw [show ∀ (LI : Page), ∀ RP,
        updPages (updPages (updPages (updPages s.pages r
          (LeafNode.split (s.pages r) (s.pages s.next)).1)
          s.next (LeafNode.split (s.pages r) (s.pages s.next)).2.1)
          (s.next + 1) RP) r LI (s.next + 1) = RP from fun LI RP => by
          rw [updPages_ne _ _ _ _ (by omega : s.next + 1 ≠ r), updPages_at]]
      exact (makeNewRoot_shape zeroPage rfl 1 _ r s.next).1
    · rw [show ∀ (LI : Page), ∀ RP,
        updPages (updPages (updPages (updPages s.pages r
          (LeafNode.split (s.pages r) (s.pages s.next)).1)
          s.next (LeafNode.split (s.pages r) (s.pages s.next)).2.1)
          (s.next + 1) RP) r LI (s.next + 1) = RP from fun LI RP => by
          rw [updPages_ne _ _ _ _ (by omega : s.next + 1 ≠ r), updPages_at]]
      exact (makeNewRoot_shape zeroPage rfl 1 _ r s.next).2.1
    · rw [show ∀ (LI : Page), ∀ RP,
        updPages (updPages (updPages (updPages s.pages r
          (LeafNode.split (s.pages r) (s.pages s.next)).1)
          s.next (LeafNode.split (s.pages r) (s.pages s.next)).2.1)
          (s.next + 1) RP) r LI (s.next + 1) = RP from fun LI RP => by
          rw [updPages_ne _ _ _ _ (by omega : s.next + 1 ≠ r), updPages_at]]
      rw [(makeNewRoot_shape zeroPage rfl 1
        (LeafNode.split (s.pages r) (s.pages s.next)).2.2 r s.next).2.2.1]
      show (s.pages r).keys (((s.pages r).count - 1) / 2 + 1)
        = (s.pages r).keys 21
      rw [hcnt]
    · rw [show ∀ (LI : Page), ∀ RP,
        updPages (updPages (updPages (updPages s.pages r
          (LeafNode.split (s.pages r) (s.pages s.next)).1)
          s.next (LeafNode.split (s.pages r) (s.pages s.next)).2.1)
          (s.next + 1) RP) r LI (s.next + 1) = RP from fun LI RP => by
          rw [updPages_ne _ _ _ _ (by omega : s.next + 1 ≠ r), updPages_at]]
      exact (makeNewRoot_shape zeroPage rfl 1 _ r s.next).2.2.2.1
    · rw [show ∀ (LI : Page), ∀ RP,
        updPages (updPages (updPages (updPages s.pages r
          (LeafNode.split (s.pages r) (s.pages s.next)).1)
          s.next (LeafNode.split (s.pages r) (s.pages s.next)).2.1)
          (s.next + 1) RP) r LI (s.next + 1) = RP from fun LI RP => by
          rw [updPages_ne _ _ _ _ (by omega : s.next + 1 ≠ r), updPages_at]]
      exact (makeNewRoot_shape zeroPage rfl 1 _ r s.next).2.2.2.2
  · rw [if_neg hk, show (5 : Nat) = 4 + 1 from rfl]
    rw [insertLoop_leaf_room k v 4 _ s.next (some (s.next + 1))
      (by show (updPages _ (s.next + 1) _ s.next).level = 0
          rw [hp_n]
          show (s.pages s.next).level = 0
          rw [hz1]
          rfl)
      (by show (updPages _ (s.next + 1) _ s.next).count < kCapacity
          rw [hp_n]
          show ((s.pages r).count - 1) / 2 < kCapacity
          rw [hcnt]
          decide)]
    dsimp only []
    refine ⟨rfl, rfl, ?_, ?_, ?_, ?_, ?_⟩
    · rw [show ∀ (LI : Page), ∀ RP,
        updPages (updPages (updPages (updPages s.pages r
          (LeafNode.split (s.pages r) (s.pages s.next)).1)
          s.next (LeafNode.split (s.pages r) (s.pages s.next)).2.1)
          (s.next + 1) RP) s.next LI (s.next + 1) = RP from fun LI RP => by
          rw [updPages_ne _ _ _ _ (by omega : s.next + 1 ≠ s.next),
            updPages_at]]
      exact (makeNewRoot_shape zeroPage rfl 1 _ r s.next).1
    · rw [show ∀ (LI : Page), ∀ RP,
        updPages (updPages (updPages (updPages s.pages r
          (LeafNode.split (s.pages r) (s.pages s.next)).1)
          s.next (LeafNode.split (s.pages r) (s.pages s.next)).2.1)
          (s.next + 1) RP) s.next LI (s.next + 1) = RP from fun LI RP => by
          rw [updPages_ne _ _ _ _ (by omega : s.next + 1 ≠ s.next),
            updPages_at]]
      exact (makeNewRoot_shape zeroPage rfl 1 _ r s.next).2.1
    · rw [show ∀ (LI : Page), ∀ RP,
        updPages (updPages (updPages (updPages s.pages r
          (LeafNode.split (s.pages r) (s.pages s.next)).1)
          s.next (LeafNode.split (s.pages r) (s.pages s.next)).2.1)
          (s.next + 1) RP) s.next LI (s.next + 1) = RP from fun LI RP => by
          rw [updPages_ne _ _ _ _ (by omega : s.next + 1 ≠ s.next),
            updPages_at]]
      rw [(makeNewRoot_shape zeroPage rfl 1
        (LeafNode.split (s.pages r) (s.pages s.next)).2.2 r s.next).2.2.1]
      show (s.pages r).keys (((s.pages r).count - 1) / 2 + 1)
        = (s.pages r).keys 21
      rw [hcnt]
    · rw [show ∀ (LI : Page), ∀ RP,
        updPages (updPages (updPages (updPages s.pages r
          (LeafNode.split (s.pages r) (s.pages s.next)).1)
          s.next (LeafNode.split (s.pages r) (s.pages s.next)).2.1)
          (s.next + 1) RP) s.next LI (s.next + 1) = RP from fun LI RP => by
          rw [updPages_ne _ _ _ _ (by omega : s.next + 1 ≠ s.next),
            updPages_at]]
      exact (makeNewRoot_shape zeroPage rfl 1 _ r s.next).2.2.2.1
    · rw [show ∀ (LI : Page), ∀ RP,
        updPages (updPages (updPages (updPages s.pages r
          (LeafNode.split (s.pages r) (s.pages s.next)).1)
          s.next (LeafNode.split (s.pages r) (s.pages s.next)).2.1)
          (s.next + 1) RP) s.next LI (s.next + 1) = RP from fun LI RP => by
          rw [updPages_ne _ _ _ _ (by omega : s.next + 1 ≠ s.next),
            updPages_at]]
      exact (makeNewRoot_shape zeroPage rfl 1 _ r s.next).2.2.2.2

theorem insertAt_getD_lt (l : List Int) (p : Nat) (a : Int) (i : Nat)
    (hi : i < p) (hp : p ≤ l.length) :
    (insertAt l p a).getD i 0 = l.getD i 0 := by
  induction l generalizing p i with
  | nil => simp at hp; omega
  | cons x t ih =>
    cases p with
    | zero => omega
    | succ q =>
      cases i with
      | zero => rfl
      | succ j =>
        show (insertAt t q a).getD j 0 = t.getD j 0
        exact ih q j (by omega) (by simpa using hp)

theorem insertAt_getD_self (l : List Int) (p : Nat) (a : Int)
    (hp : p ≤ l.length) :
    (insertAt l p a).getD p 0 = a := by
  induction l generalizing p with
  | nil =>
    have : p = 0 := by simpa using hp
    subst this
    rfl
  | cons x t ih =>
    cases p with
    | zero => rfl
    | succ q =>
      show (insertAt t q a).getD q 0 = a
      exact ih q (by simpa using hp)

theorem insertAt_getD_gt (l : List Int) (p : Nat) (a : Int) (i : Nat)
    (hi : p < i) :
    (insertAt l p a).getD i 0 = l.getD (i - 1) 0 := by
  induction l generalizing p i with
  | nil =>
    cases p with
    | zero =>
      cases i with
      | zero => omega
      | succ j => cases j <;> rfl
    | succ q =>
      cases i with
      | zero => omega
      | succ j => cases j <;> rfl
  | cons x t ih =>
    cases p with
    | zero =>
      cases i with
      | zero => omega
      | succ j => rfl
    | succ q =>
      cases i with
      | zero => omega
      | succ j =>
        show (insertAt t q a).getD j 0 = (x :: t).getD (j + 1 - 1) 0
        rw [ih q j (by omega)]
        have hj : 1 ≤ j := by omega
        rw [show j + 1 - 1 = j from rfl]
        show t.getD (j - 1) 0 = (x :: t).getD j 0
        cases j with
        | zero => omega
        | succ m => rfl

theorem getD_map_range (c : Nat) (f : Nat → Int) (i : Nat) (h : i < c) :
    (((List.range c).map f).getD i 0) = f i := by
  rw [List.getD_eq_getElem _ _ (by simpa using h)]
  simp

theorem getD_append_sing_lt (l : List Int) (a : Int) (i : Nat)
    (h : i < l.length) :
    ((l ++ [a]).getD i 0) = l.getD i 0 := by
  rw [List.getD_eq_getElem _ _ (by simp; omega),
    List.getD_eq_getElem _ _ h]
  exact List.getElem_append_left h

theorem getD_append_sing_self (l : List Int) (a : Int) :
    ((l ++ [a]).getD l.length 0) = a := by
  rw [List.getD_eq_getElem _ _ (by simp)]
  simp

/-- Applying `LeafNode::insert` to a key not present in a sorted leaf: the count
grows by one, the level is untouched, and the keys of the result are the
old keys with the new key placed at its first-greater-or-equal
position. -/
theorem leafInsert_fresh (n : Page) (k v : Int)
    (hs : sortedTo n.keys n.count)
    (hfresh : ∀ i, i < n.count → n.keys i ≠ k) :
    (LeafNode.insert n k v).count = n.count + 1 ∧
    (LeafNode.insert n k v).level = n.level ∧
    (∀ i, i < n.count + 1 → (LeafNode.insert n k v).keys i =
      if i < firstGeq n.keys k n.count then n.keys i
      else if i = firstGeq n.keys k n.count then k
      else n.keys (i - 1)) := by
  have hlb : LeafNode.lower_bound n k =
      (firstGeq n.keys k n.count, decide (firstGeq n.keys k n.count < n.count)) :=
    lowerBoundFn_eq_firstGeq n.count n.keys k hs
  have hfgle : firstGeq n.keys k n.count ≤ n.count := firstGeq_le n.keys k n.count
  have hKVlen : (LeafNode.get_key_vector n).length = n.count := by
    simp [LeafNode.get_key_vector]
  by_cases hcase : firstGeq n.keys k n.count < n.count
  · have hne : ¬ ((decide (firstGeq n.keys k n.count < n.count)) = true ∧
        n.keys (firstGeq n.keys k n.count) ≤ k) := by
      rintro ⟨-, h2⟩
      have hge := firstGeq_at n.keys k n.count hcase
      have := hfresh _ hcase
      omega
    have hres : LeafNode.insert n k v =
        LeafNode.syncArrays { n with count := n.count + 1 }
          (insertAt (LeafNode.get_key_vector n) (firstGeq n.keys k n.count) k)
          (insertAt (LeafNode.get_value_vector n) (firstGeq n.keys k n.count) v) := by
      unfold LeafNode.insert
      rw [hlb]
      dsimp only []
      rw [if_neg hne, if_pos (by simp [hcase])]
    rw [hres]
    refine ⟨rfl, rfl, ?_⟩
    intro i hi
    show (if i < n.count + 1 then
      (insertAt (LeafNode.get_key_vector n) (firstGeq n.keys k n.count) k).getD i 0
      else n.keys i) = _
    rw [if_pos hi]
    by_cases h1 : i < firstGeq n.keys k n.count
    · rw [if_pos h1, insertAt_getD_lt _ _ _ _ h1 (by omega)]
      exact getD_map_range n.count n.keys i (by omega)
    · rw [if_neg h1]
      by_cases h2 : i = firstGeq n.keys k n.count
      · subst h2
        rw [if_pos rfl]
        exact insertAt_getD_self _ _ _ (by omega)
      · rw [if_neg h2, insertAt_getD_gt _ _ _ _ (by omega)]
        exact getD_map_range n.count n.keys (i - 1) (by omega)
  · have hfg : firstGeq n.keys k n.count = n.count := by omega
    have hne : ¬ ((decide (firstGeq n.keys k n.count < n.count)) = true ∧
        n.keys (firstGeq n.keys k n.count) ≤ k) := by
      rintro ⟨h1, -⟩
      simp at h1
      omega
    have hres : LeafNode.insert n k v =
        LeafNode.syncArrays { n with count := n.count + 1 }
          (LeafNode.get_key_vector n ++ [k])
          (LeafNode.get_value_vector n ++ [v]) := by
      unfold LeafNode.insert
      rw [hlb]
      dsimp only []
      rw [if_neg hne, if_neg (by simp [hcase])]
    rw [hres]
    refine ⟨rfl, rfl, ?_⟩
    intro i hi
    show (if i < n.count + 1 then
      (LeafNode.get_key_vector n ++ [k]).getD i 0 else n.keys i) = _
    rw [if_pos hi, hfg]
    by_cases h1 : i < n.count
    · rw [if_pos h1, getD_append_sing_lt _ _ _ (by omega)]
      exact getD_map_range n.count n.keys i h1
    · have h2 : i = n.count := by omega
      subst h2
      rw [if_neg (by omega), if_pos rfl,
        show n.count = (LeafNode.get_key_vector n).length from hKVlen.symm]
      exact getD_append_sing_self _ _

/-- Inserting a fresh key keeps the leaf's keys strictly sorted. -/
theorem leafInsert_fresh_sorted (n : Page) (k v : Int)
    (hs : sortedTo n.keys n.count)
    (hfresh : ∀ i, i < n.count → n.keys i ≠ k) :
    sortedTo (LeafNode.insert n k v).keys (LeafNode.insert n k v).count := by
  obtain ⟨hc, -, hk⟩ := leafInsert_fresh n k v hs hfresh
  rw [hc]
  have hfgle := firstGeq_le n.keys k n.count
  have hbelow := firstGeq_below n.keys k n.count
  have hat := firstGeq_at n.keys k n.count
  intro j hj i hij
  rw [hk j hj, hk i (by omega)]
  by_cases hjf : j < firstGeq n.keys k n.count
  · rw [if_pos hjf, if_pos (by omega)]
    exact hs j (by omega) i hij
  · rw [if_neg hjf]
    by_cases hjf2 : j = firstGeq n.keys k n.count
    · rw [if_pos hjf2, if_pos (by omega)]
      exact hbelow i (by omega)
    · rw [if_neg hjf2]
      have hjgt : firstGeq n.keys k n.count < j := by omega
      have hj1 : j - 1 < n.count := by omega
      by_cases hif : i < firstGeq n.keys k n.count
      · rw [if_pos hif]
        exact hs (j - 1) hj1 i (by omega)
      · rw [if_neg hif]
        by_cases hif2 : i = firstGeq n.keys k n.count
        · rw [if_pos hif2]
          have hfc : firstGeq n.keys k n.count < n.count := by omega
          have h1 : k ≤ n.keys (firstGeq n.keys k n.count) := hat hfc
          have h2 : n.keys (firstGeq n.keys k n.count) ≠ k := hfresh _ hfc
          have h3 : k < n.keys (firstGeq n.keys k n.count) := by omega
          rcases Nat.lt_or_ge (firstGeq n.keys k n.count) (j - 1) with h | h
          · exact lt_trans h3 (hs (j - 1) hj1 _ h)
          · have : firstGeq n.keys k n.count = j - 1 := by omega
            rw [← this]
            exact h3
        · rw [if_neg hif2]
          exact hs (j - 1) hj1 (i - 1) (by omega)

/-- Inserting a fresh key adds exactly that key to the leaf's key set. -/
theorem leafInsert_fresh_mem (n : Page) (k v : Int)
    (hs : sortedTo n.keys n.count)
    (hfresh : ∀ i, i < n.count → n.keys i ≠ k) :
    ∀ x, (∃ i, i < (LeafNode.insert n k v).count ∧
        (LeafNode.insert n k v).keys i = x) ↔
      (x = k ∨ ∃ i, i < n.count ∧ n.keys i = x) := by
  obtain ⟨hc, -, hk⟩ := leafInsert_fresh n k v hs hfresh
  have hfgle := firstGeq_le n.keys k n.count
  intro x
  constructor
  · rintro ⟨i, hi, hx⟩
    rw [hc] at hi
    rw [hk i hi] at hx
    by_cases h1 : i < firstGeq n.keys k n.count
    · rw [if_pos h1] at hx
      exact Or.inr ⟨i, by omega, hx⟩
    · rw [if_neg h1] at hx
      by_cases h2 : i = firstGeq n.keys k n.count
      · rw [if_pos h2] at hx
        exact Or.inl hx.symm
      · rw [if_neg h2] at hx
        exact Or.inr ⟨i - 1, by omega, hx⟩
  · rintro (rfl | ⟨i, hi, hx⟩)
    · refine ⟨firstGeq n.keys x n.count, by omega, ?_⟩
      rw [hk _ (by omega), if_neg (by omega), if_pos rfl]
    · by_cases h : i < firstGeq n.keys k n.count
      · refine ⟨i, by omega, ?_⟩
        rw [hk i (by omega), if_pos h]
        exact hx
      · refine ⟨i + 1, by omega, ?_⟩
        rw [hk (i + 1) (by omega), if_neg (by omega), if_neg (by omega)]
        simpa using hx

theorem leafInsert_level (n : Page) (k v : Int) :
    (LeafNode.insert n k v).level = n.level := by
  unfold LeafNode.insert
  dsimp only []
  split <;> rfl

theorem innerInsert_level (n : Page) (k : Int) (c : Nat) :
    (InnerNode.insert n k c).level = n.level := rfl

theorem makeNewRoot_level (prior : Page) (lvl : Nat) (sk : Int)
    (o n' : Nat) : (BTree.makeNewRoot prior lvl sk o n').level = lvl := by
  unfold BTree.makeNewRoot
  rw [innerInsert_level, innerInsert_level]

theorem updPages_level_ge (pages : Nat → Page) (pid : Nat) (P : Page)
    (r : Nat) (h : 1 ≤ (pages r).level) (hP : r = pid → 1 ≤ P.level) :
    1 ≤ (updPages pages pid P r).level := by
  by_cases hc : r = pid
  · rw [hc, updPages_at]
    exact hP hc
  · rw [updPages_ne _ _ _ _ hc]
    exact h

/-- Every step of the insert loop keeps the root pointing at an
allocated inner page: no write ever lowers an existing page's level,
fresh pages have ids at or above `next > root`, and a re-rooting always
installs a level `≥ 1` inner node at a fresh id below the new
`next_page_id`. -/
theorem insertLoop_rootGood (k v : Int) :
    ∀ fuel (s : Store) (cur : Nat) (par : Option Nat), rootGoodInv s →
      rootGoodInv (BTree.insertLoop k v fuel s cur par) := by
  intro fuel
  induction fuel with
  | zero => exact fun s cur par h => h
  | succ fuel ih =>
    intro s cur par h
    obtain ⟨r, hr, hrn, hlv⟩ := h
    rw [BTree.insertLoop]
    dsimp only []
    by_cases hl : (s.pages cur).level = 0
    · rw [if_pos hl]
      by_cases hc : (s.pages cur).count < kCapacity
      · rw [if_pos hc]
        refine ⟨r, hr, hrn, ?_⟩
        apply updPages_level_ge _ _ _ _ hlv
        intro hrc
        rw [leafInsert_level]
        rw [hrc] at hlv
        exact hlv
      · rw [if_neg hc]
        cases par with
        | none =>
          apply ih
          refine ⟨s.next + 1, rfl, ?_, ?_⟩
          · show s.next + 1 < s.next + 2
            omega
          · show 1 ≤ (updPages _ (s.next + 1) _ (s.next + 1)).level
            rw [updPages_at, makeNewRoot_level]
        | some p =>
          apply ih
          refine ⟨r, hr, ?_, ?_⟩
          · show r < s.next + 1
            omega
          · show 1 ≤ (updPages _ p _ r).level
            apply updPages_level_ge
            · apply updPages_level_ge
              · apply updPages_level_ge _ _ _ _ hlv
                intro hrc
                show 1 ≤ ((LeafNode.split (s.pages cur) (s.pages s.next)).1).level
                show 1 ≤ (s.pages cur).level
                rw [← hrc]
                exact hlv
              · intro hrn2
                omega
            · intro hrp
              rw [innerInsert_level]
              apply updPages_level_ge
              · apply updPages_level_ge _ _ _ _ (by rw [← hrp]; exact hlv)
                intro hrc
                show 1 ≤ ((LeafNode.split (s.pages cur) (s.pages s.next)).1).level
                show 1 ≤ (s.pages cur).level
                rw [← hrc, ← hrp]
                exact hlv
              · intro hpn
                omega
    · rw [if_neg hl]
      by_cases hc : (s.pages cur).count = kCapacity
      · rw [if_pos hc]
        cases par with
        | none =>
          apply ih
          refine ⟨s.next + 1, rfl, ?_, ?_⟩
          · show s.next + 1 < s.next + 2
            omega
          · show 1 ≤ (updPages _ (s.next + 1) _ (s.next + 1)).level
            rw [updPages_at, makeNewRoot_level]
            omega
        | some p =>
          apply ih
          refine ⟨r, hr, ?_, ?_⟩
          · show r < s.next + 1
            omega
          · show 1 ≤ (updPages _ p _ r).level
            apply updPages_level_ge
            · apply updPages_level_ge
              · apply updPages_level_ge _ _ _ _ hlv
                intro hrc
                show 1 ≤ ((InnerNode.split (s.pages cur) (s.pages s.next)).1).level
                show 1 ≤ (s.pages cur).level
                rw [← hrc]
                exact hlv
              · intro hrn2
                omega
            · intro hrp
              rw [innerInsert_level]
              apply updPages_level_ge
              · apply updPages_level_ge _ _ _ _ (by rw [← hrp]; exact hlv)
                intro hrc
                show 1 ≤ ((InnerNode.split (s.pages cur) (s.pages s.next)).1).level
                show 1 ≤ (s.pages cur).level
                rw [← hrc, ← hrp]
                exact hlv
              · intro hpn
                omega
      · rw [if_neg hc]
        exact ih s _ (some cur) ⟨r, hr, hrn, hlv⟩

/-- Whole-operation `BTree::insert` preserves the allocated-inner-root invariant. -/
theorem insert_rootGood (s : Store) (k v : Int) (h : rootGoodInv s) :
    rootGoodInv (BTree.insert s k v) := by
  obtain ⟨r, hr, hrn, hlv⟩ := h
  have : BTree.insert s k v =
      BTree.insertLoop k v (2 * (s.pages r).level + 6) s r none := by
    unfold BTree.insert
    simp only [hr, Option.getD_some]
  rw [this]
  exact insertLoop_rootGood k v _ s r none ⟨r, hr, hrn, hlv⟩

/-- The first insertion into a freshly constructed tree starts the
single-leaf phase. -/
theorem leafPhase_start (k v : Int) :
    LeafPhase (BTree.insert initialStore k v) [k] := by
  have hz : sortedTo zeroPage.keys zeroPage.count := by
    intro j hj i hij
    simp [zeroPage] at hj
  have hfresh : ∀ i, i < zeroPage.count → zeroPage.keys i ≠ k := by
    intro i hi
    simp [zeroPage] at hi
  have hins : BTree.insert initialStore k v =
      { pages := updPages initialStore.pages 0 (LeafNode.insert zeroPage k v),
        root := some 0, next := 1 } := by
    show BTree.insertLoop k v (2 * 0 + 6)
      { initialStore with root := some 0, next := 1 } 0 none = _
    rw [show (2 : Nat) * 0 + 6 = 5 + 1 from rfl]
    rw [insertLoop_leaf_room k v 5 _ 0 none rfl (by decide)]
    rfl
  obtain ⟨hc, hl, hk⟩ := leafInsert_fresh zeroPage k v hz hfresh
  have hmem := leafInsert_fresh_mem zeroPage k v hz hfresh
  have hsort := leafInsert_fresh_sorted zeroPage k v hz hfresh
  rw [hins]
  refine ⟨rfl, rfl, ?_, ?_, ?_, ?_, ?_⟩
  · show (updPages initialStore.pages 0 (LeafNode.insert zeroPage k v) 0).level = 0
    rw [updPages_at, hl]
    rfl
  · show (updPages initialStore.pages 0 (LeafNode.insert zeroPage k v) 0).count = 1
    rw [updPages_at, hc]
    rfl
  · show ∀ j, j < (updPages initialStore.pages 0 (LeafNode.insert zeroPage k v) 0).count → _
    rw [updPages_at]
    exact hsort
  · intro x
    show (∃ i, i < (updPages initialStore.pages 0 (LeafNode.insert zeroPage k v) 0).count ∧
      (updPages initialStore.pages 0 (LeafNode.insert zeroPage k v) 0).keys i = x) ↔ _
    rw [updPages_at, hmem x]
    simp [zeroPage]
  · intro p hp
    show updPages initialStore.pages 0 (LeafNode.insert zeroPage k v) p = zeroPage
    rw [updPages_ne _ _ _ _ hp]
    rfl

/-- Inserting a fresh key while in the single-leaf phase stays in the
single-leaf phase. -/
theorem leafPhase_step (s : Store) (seen : List Int) (k v : Int)
    (hlp : LeafPhase s seen) (hlen : seen.length < 42) (hnew : k ∉ seen) :
    LeafPhase (BTree.insert s k v) (seen ++ [k]) := by
  obtain ⟨hroot, hnext, hlev, hcnt, hsort, hmem, hz⟩ := hlp
  have hfresh : ∀ i, i < (s.pages 0).count → (s.pages 0).keys i ≠ k := by
    intro i hi heq
    exact hnew ((hmem k).mp ⟨i, hi, heq⟩)
  have hroom : (s.pages 0).count < kCapacity := by
    rw [hcnt]
    show seen.length < 42
    exact hlen
  have hins : BTree.insert s k v =
      { s with pages := updPages s.pages 0 (LeafNode.insert (s.pages 0) k v) } := by
    unfold BTree.insert
    simp only [hroot, Option.getD_some]
    rw [hlev, show (2 : Nat) * 0 + 6 = 5 + 1 from rfl]
    rw [insertLoop_leaf_room k v 5 s 0 none hlev hroom]
    rw [hroot]
  obtain ⟨hc, hl, -⟩ := leafInsert_fresh (s.pages 0) k v hsort hfresh
  have hmem' := leafInsert_fresh_mem (s.pages 0) k v hsort hfresh
  have hsort' := leafInsert_fresh_sorted (s.pages 0) k v hsort hfresh
  rw [hins]
  refine ⟨hroot, hnext, ?_, ?_, ?_, ?_, ?_⟩
  · show (updPages s.pages 0 (LeafNode.insert (s.pages 0) k v) 0).level = 0
    rw [updPages_at, hl, hlev]
  · show (updPages s.pages 0 (LeafNode.insert (s.pages 0) k v) 0).count
      = (seen ++ [k]).length
    rw [updPages_at, hc, hcnt]
    simp
  · show ∀ j, j < (updPages s.pages 0 (LeafNode.insert (s.pages 0) k v) 0).count → _
    rw [updPages_at]
    exact hsort'
  · intro x
    show (∃ i, i < (updPages s.pages 0 (LeafNode.insert (s.pages 0) k v) 0).count ∧
      (updPages s.pages 0 (LeafNode.insert (s.pages 0) k v) 0).keys i = x) ↔ _
    rw [updPages_at, hmem' x, hmem x]
    simp [or_comm]
  · intro p hp
    show updPages s.pages 0 (LeafNode.insert (s.pages 0) k v) p = zeroPage
    rw [updPages_ne _ _ _ _ hp]
    exact hz p hp

/-- One insertion of a not-yet-seen key preserves the growth
invariant. -/
theorem grow_step (s : Store) (seen : List Int) (k v : Int)
    (h : GrowInv s seen) (hnd : k ∉ seen) :
    GrowInv (BTree.insert s k v) (seen ++ [k]) := by
  rcases h with ⟨hseen, hs⟩ | ⟨hlp, hlen⟩ | hg
  · subst hseen
    subst hs
    right
    left
    exact ⟨by simpa using leafPhase_start k v, by simp⟩
  · by_cases hl : seen.length < 42
    · right
      left
      refine ⟨leafPhase_step s seen k v hlp hl hnd, ?_⟩
      simp
      omega
    · have h42 : seen.length = 42 := by omega
      right
      right
      obtain ⟨hroot, hnext, hlev, hcnt, hsort, hmem, hz⟩ := hlp
      have hfull : (s.pages 0).count = 42 := by rw [hcnt, h42]
      have hfact := insert_full_leaf_root s k v 0 hroot hlev hfull
        (by omega) (hz s.next (by omega)) (hz (s.next + 1) (by omega))
      refine ⟨s.next + 1, hfact.1, ?_, ?_⟩
      · rw [hfact.2.1]
        omega
      · rw [hfact.2.2.1]
  · right
    right
    exact insert_rootGood s k v hg

/-- Folding a list of insertions with pairwise-distinct fresh keys
preserves the growth invariant. -/
theorem grow_list : ∀ (l : List (Int × Int)) (s : Store) (seen : List Int),
    GrowInv s seen → (seen ++ l.map Prod.fst).Nodup →
    GrowInv (List.foldl (fun t kv => BTree.insert t kv.1 kv.2) s l)
      (seen ++ l.map Prod.fst) := by
  intro l
  induction l with
  | nil =>
    intro s seen h _
    simpa using h
  | cons kv t ih =>
    intro s seen h hnd
    have hk : kv.1 ∉ seen := by
      simp only [List.map_cons] at hnd
      rw [List.nodup_append] at hnd
      intro hmem
      exact hnd.2.2 hmem (by simp)
    have h1 : GrowInv (BTree.insert s kv.1 kv.2) (seen ++ [kv.1]) :=
      grow_step s seen kv.1 kv.2 h hk
    have h2 := ih (BTree.insert s kv.1 kv.2) (seen ++ [kv.1]) h1
      (by simpa [List.append_assoc] using hnd)
    simpa [List.append_assoc] using h2

/-- Inserting more than `kCapacity` pairwise-distinct keys into a fresh
tree leaves the root pointing at an inner node. -/
theorem growth_from_empty (ps : List (Int × Int))
    (hnd : (ps.map Prod.fst).Nodup) (hlen : 42 < ps.length) :
    rootIsInner (applyInserts ps) = true := by
  have h := grow_list ps initialStore [] (Or.inl ⟨rfl, rfl⟩)
    (by simpa using hnd)
  rcases h with ⟨hemp, -⟩ | ⟨-, hle⟩ | hg
  · have : ps.length = 0 := by simpa using congrArg List.length hemp
    omega
  · simp at hle
    omega
  · obtain ⟨r, hr, -, hlv⟩ := hg
    unfold rootIsInner applyInserts
    rw [hr]
    simpa using hlv

/-- Claim C6: whenever insert splits a node with no parent, the freshly
built root (the split node's level plus one — the leaf branch passes the
literal `1 = 0 + 1`) holds exactly two children, the old node and its
new sibling, and one separator key; an insert hitting a full root leaf
re-roots the tree at the new inner page `next + 1` with those two
children; and inserting more than `C_leaf = 42` distinct keys into an
empty tree makes the root an inner node. -/
theorem C6_root_split_and_growth :
    (∀ (prior : Page) (lvl : Nat) (sk : Int) (oldID newID : Nat),
      prior.count = 0 →
      (BTree.makeNewRoot prior (lvl + 1) sk oldID newID).level = lvl + 1 ∧
      (BTree.makeNewRoot prior (lvl + 1) sk oldID newID).count = 2 ∧
      (BTree.makeNewRoot prior (lvl + 1) sk oldID newID).keys 0 = sk ∧
      (BTree.makeNewRoot prior (lvl + 1) sk oldID newID).children 0 = oldID ∧
      (BTree.makeNewRoot prior (lvl + 1) sk oldID newID).children 1 = newID) ∧
    (∀ (s : Store) (k v : Int) (r : Nat),
      s.root = some r → (s.pages r).level = 0 → (s.pages r).count = 42 →
      r < s.next → s.pages s.next = zeroPage →
      s.pages (s.next + 1) = zeroPage →
      (BTree.insert s k v).root = some (s.next + 1) ∧
      ((BTree.insert s k v).pages (s.next + 1)).level = 1 ∧
      ((BTree.insert s k v).pages (s.next + 1)).count = 2 ∧
      ((BTree.insert s k v).pages (s.next + 1)).keys 0 = (s.pages r).keys 21 ∧
      ((BTree.insert s k v).pages (s.next + 1)).children 0 = r ∧
      ((BTree.insert s k v).pages (s.next + 1)).children 1 = s.next) ∧
    (∀ ps : List (Int × Int), (ps.map Prod.fst).Nodup →
      kCapacity < ps.length → rootIsInner (applyInserts ps) = true) := by
  refine ⟨?_, ?_, ?_⟩
  · intro prior lvl sk o n' h
    exact makeNewRoot_shape prior h (lvl + 1) sk o n'
  · intro s k v r h1 h2 h3 h4 h5 h6
    have hfact := insert_full_leaf_root s k v r h1 h2 h3 h4 h5 h6
    exact ⟨hfact.1, hfact.2.2.1, hfact.2.2.2.1, hfact.2.2.2.2.1,
      hfact.2.2.2.2.2.1, hfact.2.2.2.2.2.2⟩
  · intro ps h1 h2
    exact growth_from_empty ps h1 h2

/-- Witness: the C6 statement instantiated on the concrete full-leaf
state `sFull42` and the 43 distinct insertions `fill43`. -/
theorem C6_root_split_and_growth_witness :
    zeroPage.count = 0 ∧
    (BTree.makeNewRoot zeroPage (0 + 1) 21 0 1).count = 2 ∧
    sFull42.root = some 0 ∧ (sFull42.pages 0).count = 42 ∧
    (BTree.insert sFull42 21 100).root = some 2 ∧
    (fill43.map Prod.fst).Nodup ∧ kCapacity < fill43.length ∧
    rootIsInner (applyInserts fill43) = true := by
  refine ⟨rfl, ?_, ?_, ?_, ?_, by decide, by decide, ?_⟩
  · exact (C6_root_split_and_growth.1 zeroPage 0 21 0 1 rfl).2.1
  · decide
  · decide
  · exact (C6_root_split_and_growth.2.1 sFull42 21 100 0 (by decide)
      (by decide) (by decide) (by decide) rfl rfl).1
  · exact C6_root_split_and_growth.2.2 fill43 (by decide) (by decide)
